import Mathlib

/-
Verification of the nano-vectordb-rs similarity engine against its
natural-language specification.

The development shallowly embeds the Rust sources:

* `src/lib.rs`   — the `NanoVectorDB` engine: `normalize`, `upsert`,
  `query` (parallel bounded top-k selection over a `BinaryHeap` with a
  reversed score comparator), `delete`, `get`, and the JSON/base64
  persistence codec (`base64_bytes`, `NanoVectorDB::new`, `save`).
* `src/main.rs`  — the `MultiTenantNanoVDB` LRU tenant cache.

Modelling conventions:

* f32 values taking part in arithmetic are modelled by `ℚ` (exact
  arithmetic); the square-root step of `normalize` is abstracted by a
  parameter `isq : ℚ → ℚ` standing for `fun s => 1 / Real.sqrt s`, so that
  structural statements hold for every choice of `isq`.
* f32 values travelling through the persistence codec are modelled by
  their 32-bit pattern, a natural number below `2 ^ 32`; `f32::to_le_bytes`
  / `from_le_bytes` act on the bit pattern, so byte-level round-tripping
  is exactly bit-pattern round-tripping.
* NaN-aware score comparison (`ScoredIndex::cmp`) is modelled separately
  with scores in `Option ℚ`, `none` standing for NaN (`partial_cmp`
  returns `None` exactly when an operand is NaN).
* Rust panics (`assert!` in `normalize`, slice-bound panics) are modelled
  by `Option`: `none` is the aborted call.  Metadata JSON values are an
  arbitrary type `V`: no operation of the engine inspects them.
* `HashMap<String, Value>` fields are modelled as association lists; the
  engine never relies on hash order for the claims below.
-/

set_option maxHeartbeats 1000000

namespace NV

/-- Machine epsilon of `f32` (`f32::EPSILON = 2⁻²³`), the zero-vector
threshold of `normalize` in `src/lib.rs`. -/
def EPS : ℚ := 1 / 2 ^ 23

/-- The most negative finite `f32` (`f32::MIN = -(2¹²⁸ - 2¹⁰⁴)`), the
default `better_than` threshold in `NanoVectorDB::query`. -/
def FLT_MIN : ℚ := -(2 ^ 128 - 2 ^ 104)

/-- Sum of squares of a vector, accumulated left to right exactly as the
`fold(0.0, |acc, &x| x.mul_add(x, acc))` loop of `normalize`. -/
def sumsq (v : List ℚ) : ℚ := v.foldl (fun acc x => x * x + acc) 0

/-- The scaling step of `normalize`: every component is multiplied by
`inv_norm = 1.0 / norm_sq.sqrt()`.  `isq` abstracts `fun s => 1 / sqrt s`. -/
def nrm (isq : ℚ → ℚ) (v : List ℚ) : List ℚ :=
  v.map (fun x => x * isq (sumsq v))

/-- `normalize` from `src/lib.rs` with its zero-vector guard:
`assert!(norm_sq > Float::EPSILON)` aborts (modelled by `none`) exactly
when the sum of squares is at or below `EPS`. -/
def normalizeOpt (isq : ℚ → ℚ) (v : List ℚ) : Option (List ℚ) :=
  if EPS < sumsq v then some (nrm isq v) else none

/-- A stored record (`Data` in `src/lib.rs`): id, vector and free-form
metadata fields.  `F` is the float model, `V` the metadata value type. -/
structure Rec (F V : Type) where
  id : String
  vector : List F
  fields : List (String × V)
deriving DecidableEq

/-- The engine state (`DataBase` in `src/lib.rs`): record list, flat
matrix, and the free-form `additional_data` map. -/
structure DataBase (F V : Type) where
  embedding_dim : ℕ
  data : List (Rec F V)
  matrix : List F
  additional_data : List (String × V)
deriving DecidableEq

/-- The engine wrapper (`NanoVectorDB`): constructor argument
`embedding_dim`, the fixed metric string, and the storage. -/
structure Engine (F V : Type) where
  embedding_dim : ℕ
  metric : String
  storage : DataBase F V
deriving DecidableEq

/-- `copy_from_slice` into `matrix[start .. start + xs.length]`.  It
coincides with the Rust slice write whenever `start + xs.length ≤
m.length` (otherwise the Rust code panics); every theorem below stays in
that domain via its dimension hypotheses. -/
def setSlice (m : List ℚ) (start : ℕ) (xs : List ℚ) : List ℚ :=
  m.take start ++ xs ++ m.drop (start + xs.length)

/-- One iteration of `upsert`'s first loop: if the record's id is
already present, overwrite the matrix slice at the record's current
index with the newly normalized vector and push the id onto `updates`;
the record list itself is not touched. -/
def updStep {V : Type} (dim : ℕ) (isq : ℚ → ℚ) (db : DataBase ℚ V)
    (existing : List String) (acc : List ℚ × List String) (dt : Rec ℚ V) :
    List ℚ × List String :=
  if existing.contains dt.id then
    (setSlice acc.1 ((db.data.findIdx (fun r => r.id == dt.id)) * dim)
      (nrm isq dt.vector), acc.2 ++ [dt.id])
  else acc

/-- `NanoVectorDB::upsert`.  Pass 1 (`updStep` folded over the batch)
updates the matrix slices of records whose id is already present.  Pass
2 appends every batch record whose id was absent from the *pre-call* id
set: its normalized vector is appended to the matrix and a new record
(holding the normalized vector and the incoming fields) is pushed.
`none` models the `normalize` panic on a near-zero vector anywhere in
the batch. -/
def upsert {V : Type} (dim : ℕ) (isq : ℚ → ℚ) (db : DataBase ℚ V)
    (datas : List (Rec ℚ V)) :
    Option (DataBase ℚ V × List String × List String) :=
  if datas.all (fun dt => decide (EPS < sumsq dt.vector)) then
    let existing : List String := db.data.map (fun r => r.id)
    let upd := datas.foldl (updStep dim isq db existing) (db.matrix, [])
    let newDatas := datas.filter (fun dt => !(existing.contains dt.id))
    some (⟨db.embedding_dim,
           db.data ++ newDatas.map (fun dt => ⟨dt.id, nrm isq dt.vector, dt.fields⟩),
           upd.1 ++ (newDatas.map (fun dt => nrm isq dt.vector)).flatten,
           db.additional_data⟩,
          upd.2, newDatas.map (fun dt => dt.id))
  else none

/-- `NanoVectorDB::delete`: retain the records whose id is not in the
set, then rebuild the matrix by concatenating the surviving records'
in-memory `vector` fields. -/
def delete {F V : Type} (db : DataBase F V) (ids : List String) : DataBase F V :=
  let data' := db.data.filter (fun r => !(ids.contains r.id))
  ⟨db.embedding_dim, data', (data'.map (fun r => r.vector)).flatten, db.additional_data⟩

/-- `NanoVectorDB::get`: the stored records whose id appears in the
requested set, in store order. -/
def getRecs {F V : Type} (db : DataBase F V) (ids : List String) : List (Rec F V) :=
  db.data.filter (fun r => ids.contains r.id)

/- ### Top-k selection (`ScoredIndex`, `BinaryHeap`, `query`) -/

/-- A scored candidate: `(score, index)`, the exact-arithmetic model of
`ScoredIndex`. -/
abbrev SI : Type := ℚ × ℕ

/-- Comparison by score.  `ScoredIndex::cmp` reverses the score order
(`other.score.partial_cmp(&self.score)`), which makes Rust's max-heap
`BinaryHeap<ScoredIndex>` pop the candidate with the *lowest* score; the
heap is therefore modelled as a list sorted ascending by score whose
head is the pop target. -/
def sle (a b : SI) : Prop := a.1 ≤ b.1

instance : DecidableRel sle := fun a b => inferInstanceAs (Decidable (a.1 ≤ b.1))

instance : IsTotal SI sle := ⟨fun a b => le_total a.1 b.1⟩

instance : IsTrans SI sle := ⟨fun _ _ _ h1 h2 => le_trans h1 h2⟩

/-- One `heap.push(si); if heap.len() > top_k { heap.pop(); }` step of
`query`'s fold: insert in score order, then drop the lowest-scoring
element if the bound `k` is exceeded. -/
def boundedPush (k : ℕ) (h : List SI) (x : SI) : List SI :=
  let h' := List.orderedInsert sle x h
  if k < h'.length then h'.tail else h'

/-- One worker's fold over its slice of candidates, starting from the
empty heap. -/
def foldHeap (k : ℕ) (l : List SI) : List SI := l.foldl (boundedPush k) []

/-- The `reduce` merge of two partial heaps: every element of the second
heap is pushed into the first with the same bounded-insert rule. -/
def mergeHeaps (k : ℕ) (h1 h2 : List SI) : List SI := h2.foldl (boundedPush k) h1

/-- A shape of rayon's fold/reduce computation: leaves are the
contiguous candidate sub-streams, nodes are pairwise merges. -/
inductive PTree : Type where
  | leaf (l : List SI) : PTree
  | node (t1 t2 : PTree) : PTree

/-- All candidates of a partition tree, in leaf order. -/
def PTree.flat : PTree → List SI
  | .leaf l => l
  | .node t1 t2 => t1.flat ++ t2.flat

/-- The heap produced by running fold on every leaf and merging along
the tree. -/
def PTree.eval (k : ℕ) : PTree → List SI
  | .leaf l => foldHeap k l
  | .node t1 t2 => mergeHeaps k (t1.eval k) (t2.eval k)

/-- `matrix.par_chunks(embedding_dim)`: `embedding_dim`-sized chunks of
the flat matrix (the last chunk may be shorter; under the store
invariant all chunks are exact). -/
def chunkList (dim : ℕ) (m : List ℚ) : List (List ℚ) :=
  if h : dim = 0 ∨ m = [] then []
  else m.take dim :: chunkList dim (m.drop dim)
termination_by m.length
decreasing_by
  rcases not_or.mp h with ⟨hd, hm⟩
  simp only [List.length_drop]
  have hpos : 0 < m.length := List.length_pos.mpr hm
  omega

/-- `dot_product` in exact arithmetic.  The Rust code splits the query
into 4-wide chunks plus a remainder and re-associates the additions;
over `ℚ` this regrouping computes exactly the sum of the pairwise
products, which is what we embed. -/
def dotq (a b : List ℚ) : ℚ := (List.zipWith (fun x y => x * y) a b).sum

/-- The optional record filter of `query` (`None` accepts everything). -/
def passFilter {V : Type} (f? : Option (Rec ℚ V → Bool)) (r : Rec ℚ V) : Bool :=
  match f? with
  | some f => f r
  | none => true

/-- `self.storage.data[idx]`; total with a dummy default, coinciding
with the Rust indexing whenever `idx < data.length` (the store
invariant guarantees this for every chunk index). -/
def recAt {V : Type} (db : DataBase ℚ V) (i : ℕ) : Rec ℚ V :=
  db.data.getD i ⟨"", [], []⟩

/-- The surviving scored candidates of `query`, in matrix order:
enumerate the chunks, keep those whose record passes the filter, score
each against the normalized probe, and keep scores at or above the
threshold (`better_than` defaulting to `f32::MIN`). -/
def candStream {V : Type} (dim : ℕ) (isq : ℚ → ℚ) (db : DataBase ℚ V)
    (qv : List ℚ) (bt : Option ℚ) (f? : Option (Rec ℚ V → Bool)) : List SI :=
  let qn := nrm isq qv
  let thr := bt.getD FLT_MIN
  (((chunkList dim db.matrix).enum.filter
      (fun p => passFilter f? (recAt db p.1))).map
    (fun p => (dotq p.2 qn, p.1))).filter (fun s => decide (thr ≤ s.1))

/-- One entry of a `query` result: the record's fields plus the two
reserved keys (`__id__`, `__metrics__`), modelled structurally. -/
structure QueryHit (V : Type) where
  id : String
  score : ℚ
  fields : List (String × V)
deriving DecidableEq

/-- Rendering of a retained `(score, index)` pair into a result entry. -/
def renderHit {V : Type} (db : DataBase ℚ V) (si : SI) : QueryHit V :=
  ⟨(recAt db si.2).id, si.1, (recAt db si.2).fields⟩

/-- `NanoVectorDB::query` (sequential instance of the fold/reduce):
run the bounded top-k fold over the surviving candidates, sort the heap
descending by score (`into_sorted_vec` sorts ascending in the reversed
comparator), and render each candidate. -/
def queryModel {V : Type} (dim : ℕ) (isq : ℚ → ℚ) (db : DataBase ℚ V)
    (qv : List ℚ) (k : ℕ) (bt : Option ℚ) (f? : Option (Rec ℚ V → Bool)) :
    List (QueryHit V) :=
  ((foldHeap k (candStream dim isq db qv bt f?)).reverse).map (renderHit db)

/-- The invariant tying a bounded heap to the multiset `m` of candidates
pushed into it so far: the heap list is sorted ascending by score, holds
`min k |m|` candidates, and the candidates not retained all score at or
below every retained one — i.e. the heap holds exactly a top-k selection
of `m` by score. -/
def HeapInv (k : ℕ) (m : Multiset SI) (h : List SI) : Prop :=
  h.Sorted sle
  ∧ h.length = min k (Multiset.card m)
  ∧ ∃ dr : Multiset SI, m = (↑h : Multiset SI) + dr
      ∧ ∀ d ∈ dr, ∀ r ∈ h, d.1 ≤ r.1

/-- The specification of `query` proved by C2: the result holds
`min top_k survivors` entries, sorted by non-increasing score; its score
list is exactly the `top_k` largest survivor scores in descending order;
every entry renders an actual surviving candidate (hence passes the
filter and meets the threshold); and every partition tree with the same
candidate multiset — any rayon fold/reduce shape — produces the same
score list. -/
def QuerySpec {V : Type} (dim : ℕ) (isq : ℚ → ℚ) (db : DataBase ℚ V)
    (qv : List ℚ) (k : ℕ) (bt : Option ℚ) (f? : Option (Rec ℚ V → Bool)) : Prop :=
  (queryModel dim isq db qv k bt f?).length
      = min k (candStream dim isq db qv bt f?).length
  ∧ List.Sorted (fun a b : ℚ => b ≤ a)
      ((queryModel dim isq db qv k bt f?).map QueryHit.score)
  ∧ (queryModel dim isq db qv k bt f?).map QueryHit.score
      = ((Multiset.sort (fun a b : ℚ => a ≤ b)
            (↑((candStream dim isq db qv bt f?).map Prod.fst) : Multiset ℚ)).reverse).take k
  ∧ (∀ e ∈ queryModel dim isq db qv k bt f?,
      ∃ si ∈ candStream dim isq db qv bt f?, e = renderHit db si)
  ∧ (∀ t : PTree,
      (↑t.flat : Multiset SI) = (↑(candStream dim isq db qv bt f?) : Multiset SI) →
      ((t.eval k).reverse).map Prod.fst
        = (queryModel dim isq db qv k bt f?).map QueryHit.score)

/- ### Persistence codec (`base64_bytes`, `save`, `NanoVectorDB::new`) -/

/-- The standard base64 alphabet, `Fin`-free: sextet to character. -/
def b64char (s : ℕ) : Char :=
  Char.ofNat
    (if s < 26 then 65 + s
     else if s < 52 then 97 + (s - 26)
     else if s < 62 then 48 + (s - 52)
     else if s = 62 then 43
     else 47)

/-- Character to sextet; `none` on characters outside the alphabet. -/
def b64val (c : Char) : Option ℕ :=
  if 65 ≤ c.toNat ∧ c.toNat ≤ 90 then some (c.toNat - 65)
  else if 97 ≤ c.toNat ∧ c.toNat ≤ 122 then some (c.toNat - 97 + 26)
  else if 48 ≤ c.toNat ∧ c.toNat ≤ 57 then some (c.toNat - 48 + 52)
  else if c = '+' then some 62
  else if c = '/' then some 63
  else none

/-- Standard base64 encoding with padding of a byte sequence
(`general_purpose::STANDARD.encode`). -/
def b64encode : List ℕ → List Char
  | [] => []
  | [b0] => [b64char (b0 / 4), b64char (b0 % 4 * 16), '=', '=']
  | [b0, b1] =>
      [b64char (b0 / 4), b64char (b0 % 4 * 16 + b1 / 16), b64char (b1 % 16 * 4), '=']
  | b0 :: b1 :: b2 :: rest =>
      b64char (b0 / 4) :: b64char (b0 % 4 * 16 + b1 / 16) ::
      b64char (b1 % 16 * 4 + b2 / 64) :: b64char (b2 % 64) :: b64encode rest

/-- Standard base64 decoding (`general_purpose::STANDARD.decode`):
groups of four characters, padding only in the last group, non-canonical
trailing bits rejected (the `STANDARD` engine's canonical mode). -/
def b64decode (l : List Char) : Option (List ℕ) :=
  match l with
  | [] => some []
  | c0 :: c1 :: c2 :: c3 :: rest => do
      let s0 ← b64val c0
      let s1 ← b64val c1
      if c2 = '=' then
        if c3 = '=' ∧ rest = [] ∧ s1 % 16 = 0 then
          pure [s0 * 4 + s1 / 16]
        else none
      else do
        let s2 ← b64val c2
        if c3 = '=' then
          if rest = [] ∧ s2 % 4 = 0 then
            pure [s0 * 4 + s1 / 16, s1 % 16 * 16 + s2 / 4]
          else none
        else do
          let s3 ← b64val c3
          let bs ← b64decode rest
          pure ((s0 * 4 + s1 / 16) :: (s1 % 16 * 16 + s2 / 4) ::
                (s2 % 4 * 64 + s3) :: bs)
  | _ => none

/-- `f32::to_le_bytes` on the bit pattern of a float: four little-endian
bytes. -/
def leBytes32 (w : ℕ) : List ℕ :=
  [w % 256, w / 256 % 256, w / 65536 % 256, w / 16777216 % 256]

/-- `bytes.chunks_exact(4).map(f32::from_le_bytes)`: rebuild the bit
patterns from groups of four little-endian bytes, dropping a trailing
partial group exactly as `chunks_exact` does. -/
def bytesToF32s : List ℕ → List ℕ
  | b0 :: b1 :: b2 :: b3 :: rest =>
      (b0 + b1 * 256 + b2 * 65536 + b3 * 16777216) :: bytesToF32s rest
  | _ => []

/-- A record as it appears inside a serialized snapshot: the vector is
`#[serde(skip)]`-ped, only id and flattened fields are written. -/
structure SavedRec (V : Type) where
  id : String
  fields : List (String × V)
deriving DecidableEq

/-- The on-disk snapshot (`DataBase`'s serde form): dimension, records
without vectors, the base64 string of the matrix bytes, and
`additional_data`. -/
structure Snapshot (V : Type) where
  embedding_dim : ℕ
  data : List (SavedRec V)
  matrix_b64 : List Char
  additional_data : List (String × V)
deriving DecidableEq

/-- `serde_json::to_string(&self.storage)` followed by `fs::write`:
records keep id and fields, the matrix is base64 of the little-endian
bytes of every float in positional order. -/
def saveDB {V : Type} (db : DataBase ℕ V) : Snapshot V :=
  ⟨db.embedding_dim,
   db.data.map (fun r => ⟨r.id, r.fields⟩),
   b64encode ((db.matrix.map leBytes32).flatten),
   db.additional_data⟩

/-- Parsing a snapshot back into a `DataBase`: base64-decode the matrix
(failure models a serde error), rebuild the floats from the bytes, and
materialize every record with the serde-skip default `vector = []`. -/
def parseSnapshot {V : Type} (s : Snapshot V) : Option (DataBase ℕ V) :=
  match b64decode s.matrix_b64 with
  | none => none
  | some bytes =>
      some ⟨s.embedding_dim,
            s.data.map (fun sr => ⟨sr.id, [], sr.fields⟩),
            bytesToF32s bytes,
            s.additional_data⟩

/-- Construction-time failures of `NanoVectorDB::new` on an existing
non-empty file: a parse/decode error, or the `Matrix size mismatch`
bail-out carrying the expected and actual lengths. -/
inductive LoadErr : Type where
  | parseErr : LoadErr
  | corrupt (expected actual : ℕ) : LoadErr
deriving DecidableEq

/-- `NanoVectorDB::new` on an existing non-empty file: parse the
snapshot, validate `matrix.len() == data.len() * embedding_dim` (the
snapshot's own dimension), and only then produce the engine with the
fixed `cosine` metric. -/
def openSnapshot {V : Type} (dim : ℕ) (s : Snapshot V) :
    Except LoadErr (Engine ℕ V) :=
  match parseSnapshot s with
  | none => .error .parseErr
  | some dbp =>
      if dbp.matrix.length ≠ dbp.data.length * dbp.embedding_dim then
        .error (.corrupt (dbp.data.length * dbp.embedding_dim) dbp.matrix.length)
      else
        .ok ⟨dim, "cosine", dbp⟩

/- ### NaN-aware comparison (`ScoredIndex::cmp` with real `f32`) -/

/-- An `f32` score that may be NaN: `none` is NaN, `some q` a real. -/
abbrev FloatN : Type := Option ℚ

/-- A NaN-aware scored candidate. -/
abbrev SIN : Type := FloatN × ℕ

/-- `f32::partial_cmp`: `None` exactly when an operand is NaN. -/
def pcmp (x y : FloatN) : Option Ordering :=
  match x, y with
  | some a, some b => some (compare a b)
  | _, _ => none

/-- `ScoredIndex::cmp`: compare `other.score` against `self.score`
(reversing the score order), and on `partial_cmp` failure fall back to
the explicit NaN arm of `src/lib.rs`. -/
def cmpSI (self other : SIN) : Ordering :=
  match pcmp other.1 self.1 with
  | some o => o
  | none =>
      if self.1 = none ∧ other.1 = none then .eq
      else if self.1 = none then .lt
      else .gt

/-- The rank realized by `cmpSI`: NaN behaves as `⊤`, above every real
score, because the comparator is score-reversed and NaN falls to `.lt`. -/
def rankF : FloatN → WithTop ℚ
  | none => ⊤
  | some q => (q : WithTop ℚ)

/-- The heap order induced by `cmpSI` (`a` at or before `b` in
`into_sorted_vec` order). -/
def leN (a b : SIN) : Prop := cmpSI a b ≠ .gt

instance : DecidableRel leN :=
  fun a b => inferInstanceAs (Decidable (cmpSI a b ≠ .gt))

/-- The bounded push of `query`'s fold, in the NaN-aware model: the
max-heap pops its greatest element in `cmpSI` order, i.e. the last
element of the ascending list. -/
def pushN (k : ℕ) (h : List SIN) (x : SIN) : List SIN :=
  let h' := List.orderedInsert leN x h
  if k < h'.length then h'.dropLast else h'

/-- The top-k fold over a candidate stream in the NaN-aware model; the
resulting ascending list is exactly the `into_sorted_vec` output order
of the query result. -/
def foldHeapN (k : ℕ) (l : List SIN) : List SIN := l.foldl (pushN k) []

/- ### Multi-tenant LRU cache (`MultiTenantNanoVDB` in `src/main.rs`) -/

/-- The tenant cache state: capacity bound, the `tenants` map (handle
payloads are irrelevant to the cache discipline and modelled by `Unit`),
and the recency queue (front = least recently used). -/
structure MT : Type where
  maxCapacity : ℕ
  tenants : List (String × Unit)
  lru : List String
deriving DecidableEq

/-- `HashMap::insert`: replace the value if the key is present,
otherwise add the binding. -/
def insertT (l : List (String × Unit)) (k : String) : List (String × Unit) :=
  if (l.lookup k).isSome then
    l.map (fun p => if p.1 = k then (k, ()) else p)
  else l ++ [(k, ())]

/-- `HashMap::remove`. -/
def removeT (l : List (String × Unit)) (k : String) : List (String × Unit) :=
  l.filter (fun p => !(p.1 == k))

/-- `MultiTenantNanoVDB::create_tenant` with the freshly generated uuid
passed in: push the id to the back of the recency queue, insert the
handle, and if the map now exceeds `max_capacity`, pop the queue front
and remove that id from the map. -/
def createTenant (st : MT) (tid : String) : MT :=
  let lru1 := st.lru ++ [tid]
  let ten1 := insertT st.tenants tid
  if st.maxCapacity < ten1.length then
    match lru1 with
    | [] => ⟨st.maxCapacity, ten1, []⟩
    | oldest :: rest => ⟨st.maxCapacity, removeT ten1 oldest, rest⟩
  else ⟨st.maxCapacity, ten1, lru1⟩

/-- `MultiTenantNanoVDB::get_tenant`: remove the id from the recency
queue if present, push it to the back *unconditionally* (even when no
such tenant exists), and look the handle up. -/
def getTenant (st : MT) (tid : String) : MT × Option Unit :=
  let lru1 :=
    match st.lru.findIdx? (fun s => s == tid) with
    | some i => st.lru.eraseIdx i
    | none => st.lru
  (⟨st.maxCapacity, st.tenants, lru1 ++ [tid]⟩, st.tenants.lookup tid)

instance {ε α : Type} [DecidableEq ε] [DecidableEq α] : DecidableEq (Except ε α) :=
  fun x y =>
    match x, y with
    | .ok a, .ok b =>
        if h : a = b then .isTrue (congrArg Except.ok h)
        else .isFalse (fun hh => h (Except.ok.inj hh))
    | .error e, .error f =>
        if h : e = f then .isTrue (congrArg Except.error h)
        else .isFalse (fun hh => h (Except.error.inj hh))
    | .ok _, .error _ => .isFalse Except.noConfusion
    | .error _, .ok _ => .isFalse Except.noConfusion

/- ### Concrete instances used by witnesses and counterexamples -/

/-- A concrete stand-in for `1 / sqrt`: structural claims hold for every
`isq`, witnesses instantiate it with the constant 1. -/
def isq1 : ℚ → ℚ := fun _ => 1

/-- A concrete two-record store of dimension 1 for the query witness. -/
def dbW2 : DataBase ℚ Unit :=
  ⟨1, [⟨"a", [2], []⟩, ⟨"b", [1], []⟩], [2, 1], []⟩

/-- A concrete one-record store with metadata for the round-trip
witness. -/
def dbW4 : DataBase ℕ String :=
  ⟨1, [⟨"a", [7], [("t", "x")]⟩], [7], [("meta", "m")]⟩

/-- A snapshot of a two-record store of dimension 1 whose matrix holds
two zero floats: the failing input of the delete-after-load bug. -/
def snapEx : Snapshot Unit :=
  ⟨1, [⟨"r1", []⟩, ⟨"r2", []⟩], b64encode (([0, 0].map leBytes32).flatten), []⟩

/-- A snapshot whose matrix decodes to 0 floats while one record is
present: the corrupt-store witness input. -/
def snapBad : Snapshot Unit := ⟨1, [⟨"r1", []⟩], b64encode [], []⟩

/-- The parse of `snapBad`: one vectorless record, empty matrix. -/
def dbBad : DataBase ℕ Unit := ⟨1, [⟨"r1", [], []⟩], [], []⟩

/- ### Helper lemmas -/

theorem sumsq_foldl_aux (v : List ℚ) :
    ∀ a : ℚ, v.foldl (fun acc x => x * x + acc) a = (v.map (fun x => x * x)).sum + a := by
  induction v with
  | nil => intro a; simp
  | cons x xs ih =>
      intro a
      simp only [List.foldl_cons, List.map_cons, List.sum_cons, ih]
      ring

theorem sumsq_eq (v : List ℚ) : sumsq v = (v.map (fun x => x * x)).sum := by
  simpa [sumsq] using sumsq_foldl_aux v 0

theorem sumsq_smul (v : List ℚ) (c : ℚ) :
    sumsq (v.map (fun x => x * c)) = sumsq v * (c * c) := by
  simp only [sumsq_eq, List.map_map]
  induction v with
  | nil => simp
  | cons x xs ih =>
      simp only [List.map_cons, List.sum_cons, Function.comp] at *
      rw [ih]
      ring

/- ### C6: normalize -/

/-- C6: `normalize(v)` fails exactly when the sum of squares of `v` is
at or below `EPS`; otherwise it returns the vector whose `i`-th entry is
`v[i]` scaled by the reciprocal square root of that sum (`isq` stands
for `fun s => 1 / sqrt s`), and whenever the scaling really is a
reciprocal square root (`s * isq s * isq s = 1`) the result has squared
L2 norm exactly 1 — in exact arithmetic no NaN can be produced, and the
function is deterministic and side-effect-free by construction. -/
theorem normalize_spec (v : List ℚ) (isq : ℚ → ℚ) :
    (normalizeOpt isq v = none ↔ sumsq v ≤ EPS)
    ∧ (EPS < sumsq v →
        normalizeOpt isq v = some (v.map (fun x => x * isq (sumsq v))))
    ∧ (EPS < sumsq v → sumsq v * (isq (sumsq v) * isq (sumsq v)) = 1 →
        sumsq (nrm isq v) = 1) := by
  refine ⟨?_, ?_, ?_⟩
  · unfold normalizeOpt
    split_ifs with h
    · simp [not_le.mpr h]
    · simp [not_lt.mp h]
  · intro h
    unfold normalizeOpt
    rw [if_pos h]
    rfl
  · intro _ hisq
    rw [nrm, sumsq_smul, hisq]

/-- Witness for C6 at `v = [1]`, `isq = fun _ => 1`. -/
theorem normalize_spec_witness :
    EPS < sumsq [(1 : ℚ)]
    ∧ normalizeOpt isq1 [(1 : ℚ)]
        = some ([(1 : ℚ)].map (fun x => x * isq1 (sumsq [(1 : ℚ)])))
    ∧ sumsq (nrm isq1 [(1 : ℚ)]) = 1 := by
  have h : EPS < sumsq [(1 : ℚ)] := by norm_num [sumsq, EPS]
  have hisq : sumsq [(1 : ℚ)] * (isq1 (sumsq [(1 : ℚ)]) * isq1 (sumsq [(1 : ℚ)])) = 1 := by
    norm_num [sumsq, isq1]
  exact ⟨h, (normalize_spec [(1 : ℚ)] isq1).2.1 h,
         (normalize_spec [(1 : ℚ)] isq1).2.2 h hisq⟩

/- ### C3: upsert on an existing id -/

/-- C3 counterexample: inserting `"a"` with fields `{k ↦ v1}` and then
upserting `"a"` with fields `{k ↦ v2}` leaves the stored record's fields
at `{k ↦ v1}` (and its stored vector at the old normalized vector): the
matrix slice is overwritten but the new fields are discarded, so the
claim that fields are replaced wholesale is false. -/
theorem upsert_keeps_old_fields :
    (upsert 1 isq1 (⟨1, [], [], []⟩ : DataBase ℚ String)
        [⟨"a", [1], [("k", "v1")]⟩]).bind
      (fun r => upsert 1 isq1 r.1 [⟨"a", [2], [("k", "v2")]⟩])
      = some (⟨1, [⟨"a", [1], [("k", "v1")]⟩], [2], []⟩, ["a"], [])
    ∧ [("k", "v1")] ≠ [("k", "v2")] := by
  constructor
  · norm_num [upsert, updStep, nrm, sumsq, isq1, EPS, setSlice, Option.bind]
    decide
  · decide

/-- C3 (amended): upserting a single record whose id is already present
returns it as updated, overwrites the record's matrix slice with the new
normalized vector, and leaves the record list — count, stored vectors
and stored fields — completely unchanged; the incoming fields are
discarded, not merged and not applied. -/
theorem upsert_update_spec {V : Type} (dim : ℕ) (isq : ℚ → ℚ)
    (db : DataBase ℚ V) (id0 : String) (v : List ℚ) (f : List (String × V))
    (hmem : (db.data.map (fun r => r.id)).contains id0 = true)
    (hv : EPS < sumsq v) :
    upsert dim isq db [⟨id0, v, f⟩]
      = some (⟨db.embedding_dim, db.data,
              setSlice db.matrix
                ((db.data.findIdx (fun r => r.id == id0)) * dim) (nrm isq v),
              db.additional_data⟩,
             [id0], []) := by
  have hex : ∃ a ∈ db.data, a.id = id0 := by simpa using hmem
  unfold upsert
  rw [if_pos (by simp [hv])]
  simp [hex, updStep]

/-- Witness for C3 (amended) on a concrete one-record store. -/
theorem upsert_update_spec_witness :
    ((((⟨1, [⟨"a", [1], [("k", "v1")]⟩], [1], []⟩ : DataBase ℚ String)).data.map
        (fun r => r.id)).contains "a" = true)
    ∧ EPS < sumsq [(2 : ℚ)]
    ∧ upsert 1 isq1 (⟨1, [⟨"a", [1], [("k", "v1")]⟩], [1], []⟩ : DataBase ℚ String)
        [⟨"a", [2], [("k", "v2")]⟩]
      = some (⟨1, [⟨"a", [1], [("k", "v1")]⟩],
              setSlice [1]
                (((⟨1, [⟨"a", [1], [("k", "v1")]⟩], [1], []⟩ : DataBase ℚ String)).data.findIdx
                    (fun r => r.id == "a") * 1) (nrm isq1 [2]),
              []⟩,
             ["a"], []) :=
  ⟨by decide, by norm_num [sumsq, EPS],
   upsert_update_spec 1 isq1 _ "a" [2] [("k", "v2")] (by decide)
     (by norm_num [sumsq, EPS])⟩

/- ### C1: the matrix-length invariant -/

/-- C1 is violated by the code: loading a valid two-record snapshot of
dimension 1 succeeds (records come back with the serde-skip default
`vector = []`), and a subsequent `delete` of one id rebuilds the matrix
from those empty in-memory vectors, leaving 1 record but a matrix of
length 0 instead of `1 * embedding_dim` — the invariant
`matrix.length = records.count * embedding_dim` fails right after the
call, and saving this state produces a file the constructor itself
rejects as corrupt. -/
theorem load_then_delete_breaks_invariant :
    openSnapshot 1 snapEx
      = .ok ⟨1, "cosine", ⟨1, [⟨"r1", [], []⟩, ⟨"r2", [], []⟩], [0, 0], []⟩⟩
    ∧ (delete (⟨1, [⟨"r1", [], []⟩, ⟨"r2", [], []⟩], [0, 0], []⟩ : DataBase ℕ Unit)
        ["r1"]).data.length = 1
    ∧ (delete (⟨1, [⟨"r1", [], []⟩, ⟨"r2", [], []⟩], [0, 0], []⟩ : DataBase ℕ Unit)
        ["r1"]).matrix.length = 0
    ∧ (delete (⟨1, [⟨"r1", [], []⟩, ⟨"r2", [], []⟩], [0, 0], []⟩ : DataBase ℕ Unit)
        ["r1"]).matrix.length
      ≠ (delete (⟨1, [⟨"r1", [], []⟩, ⟨"r2", [], []⟩], [0, 0], []⟩ : DataBase ℕ Unit)
          ["r1"]).data.length * 1 := by decide

/- ### C7: the NaN-aware score comparison -/

/-- C7 counterexample: in the selector's output order (ascending in the
reversed comparator, i.e. best first), a NaN-scored candidate is placed
*before* a real-scored one, and with `top_k = 1` the NaN candidate even
evicts the real-scored candidate from the result — the claim that a NaN
is never ranked above a real score is false. -/
theorem nan_ranks_above_real :
    foldHeapN 2 [((some 1 : FloatN), 0), ((none : FloatN), 1)]
      = [((none : FloatN), 1), ((some 1 : FloatN), 0)]
    ∧ foldHeapN 1 [((some 1 : FloatN), 0), ((none : FloatN), 1)]
      = [((none : FloatN), 1)] := by decide

/-- C7 (amended): `ScoredIndex::cmp` is the total (pre)order obtained by
ranking scores in `WithTop ℚ` with NaN as `⊤` and comparing in reverse,
so it never panics (every pair is ordered), NaN compares equal to NaN,
and a NaN literally returns `Less` against every real score — but since
the comparator is score-reversed, `Less` means *ranked above*: the
selector sorts NaN-scored candidates above every real-scored one. -/
theorem cmpSI_total_order_nan_top :
    (∀ a b : SIN, cmpSI a b = .eq ↔ rankF a.1 = rankF b.1)
    ∧ (∀ a b : SIN, cmpSI a b = .lt ↔ rankF b.1 < rankF a.1)
    ∧ (∀ a b : SIN, cmpSI a b = .gt ↔ rankF a.1 < rankF b.1)
    ∧ (∀ (s : ℚ) (i j : ℕ), cmpSI (none, i) (some s, j) = .lt) := by
  refine ⟨?_, ?_, ?_, ?_⟩
  · intro a b
    rcases a with ⟨_ | x, i⟩ <;> rcases b with ⟨_ | y, j⟩
    · simp [cmpSI, pcmp, rankF]
    · simp [cmpSI, pcmp, rankF]
    · simp [cmpSI, pcmp, rankF]
    · simpa [cmpSI, pcmp, rankF, compare_eq_iff_eq] using eq_comm
  · intro a b
    rcases a with ⟨_ | x, i⟩ <;> rcases b with ⟨_ | y, j⟩ <;>
      simp [cmpSI, pcmp, rankF, compare_lt_iff_lt]
  · intro a b
    rcases a with ⟨_ | x, i⟩ <;> rcases b with ⟨_ | y, j⟩ <;>
      simp [cmpSI, pcmp, rankF, compare_gt_iff_gt]
  · intro s i j
    simp [cmpSI, pcmp]

/- ### C8: the multi-tenant LRU cache -/

/-- C8 is violated by the code: with `max_capacity = 1`, create tenant
`A`, call `get_tenant` on the unknown id `B` (which correctly returns
nothing but still pushes `B` onto the recency queue), touch `A`, then
create tenant `C`.  The overflow eviction pops the phantom `B` from the
queue and removes nothing from the map, so two live handles remain —
more than `max_capacity`. -/
theorem tenant_cache_exceeds_capacity :
    (getTenant (createTenant ⟨1, [], []⟩ "A") "B").2 = none
    ∧ (createTenant
        (getTenant ((getTenant (createTenant ⟨1, [], []⟩ "A") "B").1) "A").1
        "C").maxCapacity = 1
    ∧ (createTenant
        (getTenant ((getTenant (createTenant ⟨1, [], []⟩ "A") "B").1) "A").1
        "C").tenants.length = 2 := by decide

/- ### C9: batch classification in upsert -/

theorem updStep_foldl_snd {V : Type} (dim : ℕ) (isq : ℚ → ℚ)
    (db : DataBase ℚ V) (existing : List String) :
    ∀ (datas : List (Rec ℚ V)) (m0 : List ℚ) (acc0 : List String),
      (datas.foldl (updStep dim isq db existing) (m0, acc0)).2
        = acc0 ++ (datas.filter (fun dt => existing.contains dt.id)).map
            (fun dt => dt.id) := by
  intro datas
  induction datas with
  | nil => intro m0 acc0; simp
  | cons dt rest ih =>
      intro m0 acc0
      by_cases h : dt.id ∈ existing
      · simp [List.foldl_cons, updStep, h, ih, List.filter_cons]
      · simp [List.foldl_cons, updStep, h, ih, List.filter_cons]

/-- C9: a successful `upsert` classifies every input record against the
pre-call id set: records whose id was present go to `updated_ids` (in
batch order), every other record goes to `inserted_ids` and is appended
to the end of the record list with its normalized vector and its own
fields.  In particular two batch records sharing the same
previously-unseen id both fail the membership test against the pre-call
set, so both are appended as separate records — no deduplication or
merging happens. -/
theorem upsert_batch_spec {V : Type} (dim : ℕ) (isq : ℚ → ℚ)
    (db : DataBase ℚ V) (datas : List (Rec ℚ V))
    (hall : ∀ d ∈ datas, EPS < sumsq d.vector) :
    ∃ db' : DataBase ℚ V,
      upsert dim isq db datas
        = some (db',
            (datas.filter (fun d => (db.data.map (fun r => r.id)).contains d.id)).map
              (fun d => d.id),
            (datas.filter (fun d => !((db.data.map (fun r => r.id)).contains d.id))).map
              (fun d => d.id))
      ∧ db'.data
        = db.data
          ++ (datas.filter (fun d => !((db.data.map (fun r => r.id)).contains d.id))).map
              (fun d => ⟨d.id, nrm isq d.vector, d.fields⟩) := by
  have hcond : (datas.all (fun dt => decide (EPS < sumsq dt.vector))) = true := by
    simp only [List.all_eq_true, decide_eq_true_eq]
    exact hall
  unfold upsert
  rw [if_pos hcond]
  dsimp only
  refine ⟨⟨db.embedding_dim,
      db.data
        ++ (datas.filter (fun d => !((db.data.map (fun r => r.id)).contains d.id))).map
            (fun d => ⟨d.id, nrm isq d.vector, d.fields⟩),
      (datas.foldl (updStep dim isq db (db.data.map (fun r => r.id))) (db.matrix, [])).1
        ++ ((datas.filter (fun d => !((db.data.map (fun r => r.id)).contains d.id))).map
            (fun d => nrm isq d.vector)).flatten,
      db.additional_data⟩, ?_, rfl⟩
  rw [updStep_foldl_snd]
  simp

/-- Witness for C9: on an empty store, a batch with two records sharing
the brand-new id `"x"` yields two separate inserts and two appended
records. -/
theorem upsert_batch_spec_witness :
    (∀ d ∈ [(⟨"x", [1], []⟩ : Rec ℚ Unit), ⟨"x", [2], []⟩], EPS < sumsq d.vector)
    ∧ ∃ db' : DataBase ℚ Unit,
        upsert 1 isq1 (⟨1, [], [], []⟩ : DataBase ℚ Unit)
            [⟨"x", [1], []⟩, ⟨"x", [2], []⟩]
          = some (db',
              ([(⟨"x", [1], []⟩ : Rec ℚ Unit), ⟨"x", [2], []⟩].filter
                  (fun d => ((⟨1, [], [], []⟩ : DataBase ℚ Unit).data.map
                      (fun r => r.id)).contains d.id)).map (fun d => d.id),
              ([(⟨"x", [1], []⟩ : Rec ℚ Unit), ⟨"x", [2], []⟩].filter
                  (fun d => !(((⟨1, [], [], []⟩ : DataBase ℚ Unit).data.map
                      (fun r => r.id)).contains d.id))).map (fun d => d.id))
        ∧ db'.data
          = (⟨1, [], [], []⟩ : DataBase ℚ Unit).data
            ++ ([(⟨"x", [1], []⟩ : Rec ℚ Unit), ⟨"x", [2], []⟩].filter
                  (fun d => !(((⟨1, [], [], []⟩ : DataBase ℚ Unit).data.map
                      (fun r => r.id)).contains d.id))).map
                (fun d => ⟨d.id, nrm isq1 d.vector, d.fields⟩) := by
  have hall : ∀ d ∈ [(⟨"x", [1], []⟩ : Rec ℚ Unit), ⟨"x", [2], []⟩],
      EPS < sumsq d.vector := by
    intro d hd
    rcases List.mem_cons.mp hd with rfl | hd1
    · norm_num [sumsq, EPS]
    · rcases List.mem_cons.mp hd1 with rfl | hd2
      · norm_num [sumsq, EPS]
      · cases hd2
  exact ⟨hall, upsert_batch_spec 1 isq1 _ _ hall⟩

/- ### C10: loaded records carry no vectors -/

theorem parseSnapshot_data {V : Type} (s : Snapshot V) (dbp : DataBase ℕ V)
    (hp : parseSnapshot s = some dbp) :
    dbp.data = s.data.map (fun sr => ⟨sr.id, [], sr.fields⟩) := by
  unfold parseSnapshot at hp
  cases hb : b64decode s.matrix_b64 with
  | none => rw [hb] at hp; cases hp
  | some bytes => rw [hb] at hp; cases hp; rfl

theorem openSnapshot_eq {V : Type} (dim : ℕ) (s : Snapshot V)
    (dbp : DataBase ℕ V) (hp : parseSnapshot s = some dbp) :
    openSnapshot dim s
      = if dbp.matrix.length ≠ dbp.data.length * dbp.embedding_dim then
          .error (.corrupt (dbp.data.length * dbp.embedding_dim) dbp.matrix.length)
        else .ok ⟨dim, "cosine", dbp⟩ := by
  unfold openSnapshot
  rw [hp]

/-- C10: every record of an engine constructed from a snapshot has
`vector = []` (vectors are restored only into the flat matrix, never
into the `Data` values, because serde skips the field), and therefore
every record returned by `get` on the freshly loaded engine has an
empty vector. -/
theorem loaded_records_have_empty_vectors {V : Type} (dim : ℕ)
    (s : Snapshot V) (eng : Engine ℕ V) (h : openSnapshot dim s = .ok eng) :
    (∀ r ∈ eng.storage.data, r.vector = [])
    ∧ ∀ (ids : List String), ∀ r ∈ getRecs eng.storage ids, r.vector = [] := by
  have hdata : eng.storage.data
      = s.data.map (fun sr => ⟨sr.id, [], sr.fields⟩) := by
    cases hp : parseSnapshot s with
    | none =>
        unfold openSnapshot at h
        rw [hp] at h
        exact Except.noConfusion h
    | some dbp =>
        rw [openSnapshot_eq dim s dbp hp] at h
        by_cases hc : dbp.matrix.length ≠ dbp.data.length * dbp.embedding_dim
        · rw [if_pos hc] at h
          exact Except.noConfusion h
        · rw [if_neg hc] at h
          injection h with h2
          rw [← h2]
          exact parseSnapshot_data s dbp hp
  have hvec : ∀ r ∈ eng.storage.data, r.vector = ([] : List ℕ) := by
    intro r hr
    rw [hdata] at hr
    rcases List.mem_map.mp hr with ⟨sr, _, rfl⟩
    rfl
  refine ⟨hvec, ?_⟩
  intro ids r hr
  exact hvec r (List.mem_of_mem_filter hr)

/-- Witness for C10 on the concrete snapshot `snapEx`. -/
theorem loaded_records_witness :
    openSnapshot 1 snapEx
      = .ok ⟨1, "cosine", ⟨1, [⟨"r1", [], []⟩, ⟨"r2", [], []⟩], [0, 0], []⟩⟩
    ∧ ((∀ r ∈ (⟨1, "cosine",
            ⟨1, [⟨"r1", [], []⟩, ⟨"r2", [], []⟩], [0, 0], []⟩⟩ :
            Engine ℕ Unit).storage.data, r.vector = [])
       ∧ ∀ (ids : List String),
          ∀ r ∈ getRecs (⟨1, "cosine",
              ⟨1, [⟨"r1", [], []⟩, ⟨"r2", [], []⟩], [0, 0], []⟩⟩ :
              Engine ℕ Unit).storage ids, r.vector = []) :=
  ⟨by decide, loaded_records_have_empty_vectors 1 snapEx _ (by decide)⟩

/- ### C5: corrupt-store validation at load -/

/-- C5: once the snapshot parses (base64 decodes), construction fails
with the `corrupt` error exactly when the decoded matrix length differs
from `record count * embedding_dim`; a `corrupt` error always carries
exactly that expected length and the actual decoded length; and an engine
is produced only when the lengths agree (Except yields either the error
or the engine, never both). -/
theorem open_corrupt_iff {V : Type} (dim : ℕ) (s : Snapshot V)
    (dbp : DataBase ℕ V) (hp : parseSnapshot s = some dbp) :
    (openSnapshot dim s
        = .error (.corrupt (dbp.data.length * dbp.embedding_dim) dbp.matrix.length)
      ↔ dbp.matrix.length ≠ dbp.data.length * dbp.embedding_dim)
    ∧ (∀ e a : ℕ, openSnapshot dim s = .error (.corrupt e a) →
        e = dbp.data.length * dbp.embedding_dim ∧ a = dbp.matrix.length)
    ∧ (∀ eng : Engine ℕ V, openSnapshot dim s = .ok eng →
        dbp.matrix.length = dbp.data.length * dbp.embedding_dim) := by
  rw [openSnapshot_eq dim s dbp hp]
  by_cases hc : dbp.matrix.length ≠ dbp.data.length * dbp.embedding_dim
  · rw [if_pos hc]
    refine ⟨by simp [hc], ?_, ?_⟩
    · intro e a h
      injection h with h1
      injection h1 with h2 h3
      exact ⟨h2.symm, h3.symm⟩
    · intro eng h
      exact Except.noConfusion h
  · rw [if_neg hc]
    push_neg at hc
    refine ⟨by simp [hc], ?_, ?_⟩
    · intro e a h
      exact Except.noConfusion h
    · intro eng _
      exact hc

/- ### C4: the save/load round trip -/

theorem b64val_b64char : ∀ s : ℕ, s < 64 → b64val (b64char s) = some s := by decide

theorem b64char_ne_pad : ∀ s : ℕ, s < 64 → b64char s ≠ '=' := by decide

theorem b64_roundtrip (bs : List ℕ) (hb : ∀ b ∈ bs, b < 256) :
    b64decode (b64encode bs) = some bs := by
  match bs with
  | [] => rfl
  | [b0] =>
      have h0 : b0 < 256 := hb b0 (by simp)
      have e0 : b64val (b64char (b0 / 4)) = some (b0 / 4) :=
        b64val_b64char _ (by omega)
      have e1 : b64val (b64char (b0 % 4 * 16)) = some (b0 % 4 * 16) :=
        b64val_b64char _ (by omega)
      have hm : b0 % 4 * 16 % 16 = 0 := by omega
      show b64decode [b64char (b0 / 4), b64char (b0 % 4 * 16), '=', '='] = some [b0]
      simp only [b64decode, e0, e1, Option.bind_eq_bind, Option.some_bind]
      simp [hm]
      omega
  | [b0, b1] =>
      have h0 : b0 < 256 := hb b0 (by simp)
      have h1 : b1 < 256 := hb b1 (by simp)
      have e0 : b64val (b64char (b0 / 4)) = some (b0 / 4) :=
        b64val_b64char _ (by omega)
      have e1 : b64val (b64char (b0 % 4 * 16 + b1 / 16))
          = some (b0 % 4 * 16 + b1 / 16) := b64val_b64char _ (by omega)
      have e2 : b64val (b64char (b1 % 16 * 4)) = some (b1 % 16 * 4) :=
        b64val_b64char _ (by omega)
      have hne2 : ¬(b64char (b1 % 16 * 4) = '=') := b64char_ne_pad _ (by omega)
      have hm : b1 % 16 * 4 % 4 = 0 := by omega
      show b64decode [b64char (b0 / 4), b64char (b0 % 4 * 16 + b1 / 16),
          b64char (b1 % 16 * 4), '='] = some [b0, b1]
      simp only [b64decode, e0, e1, e2, Option.bind_eq_bind, Option.some_bind]
      simp [hne2, hm]
      omega
  | b0 :: b1 :: b2 :: rest =>
      have h0 : b0 < 256 := hb b0 (by simp)
      have h1 : b1 < 256 := hb b1 (by simp)
      have h2 : b2 < 256 := hb b2 (by simp)
      have ih := b64_roundtrip rest (fun b h => hb b (by simp [h]))
      have e0 : b64val (b64char (b0 / 4)) = some (b0 / 4) :=
        b64val_b64char _ (by omega)
      have e1 : b64val (b64char (b0 % 4 * 16 + b1 / 16))
          = some (b0 % 4 * 16 + b1 / 16) := b64val_b64char _ (by omega)
      have e2 : b64val (b64char (b1 % 16 * 4 + b2 / 64))
          = some (b1 % 16 * 4 + b2 / 64) := b64val_b64char _ (by omega)
      have e3 : b64val (b64char (b2 % 64)) = some (b2 % 64) :=
        b64val_b64char _ (by omega)
      have hne2 : ¬(b64char (b1 % 16 * 4 + b2 / 64) = '=') :=
        b64char_ne_pad _ (by omega)
      have hne3 : ¬(b64char (b2 % 64) = '=') := b64char_ne_pad _ (by omega)
      show b64decode (b64char (b0 / 4) :: b64char (b0 % 4 * 16 + b1 / 16) ::
          b64char (b1 % 16 * 4 + b2 / 64) :: b64char (b2 % 64) ::
          b64encode rest) = some (b0 :: b1 :: b2 :: rest)
      simp only [b64decode, e0, e1, e2, e3, Option.bind_eq_bind, Option.some_bind]
      simp [hne2, hne3, ih]
      omega

theorem leBytes_flatten_lt (ws : List ℕ) :
    ∀ b ∈ (ws.map leBytes32).flatten, b < 256 := by
  intro b hb
  simp only [List.mem_flatten, List.mem_map] at hb
  obtain ⟨l, ⟨w, _, rfl⟩, hbl⟩ := hb
  simp only [leBytes32, List.mem_cons, List.not_mem_nil, or_false] at hbl
  rcases hbl with rfl | rfl | rfl | rfl <;> omega

theorem words_roundtrip (ws : List ℕ) (hw : ∀ w ∈ ws, w < 2 ^ 32) :
    bytesToF32s ((ws.map leBytes32).flatten) = ws := by
  induction ws with
  | nil => rfl
  | cons w rest ih =>
      have hwlt : w < 2 ^ 32 := hw w (by simp)
      show bytesToF32s (w % 256 :: w / 256 % 256 :: w / 65536 % 256 ::
          w / 16777216 % 256 :: (rest.map leBytes32).flatten) = w :: rest
      rw [bytesToF32s, ih (fun x hx => hw x (by simp [hx]))]
      congr 1
      omega

/-- C4: saving a well-formed store and constructing an engine from the
resulting snapshot succeeds and reproduces the storage exactly: same
dimension, the records in the same order with the same ids and fields
(their in-memory vectors are dropped by serde and come back empty), the
matrix equal element for element (every float bit pattern round-trips
exactly through base64 of its little-endian bytes), and the same
`additional_data`. -/
theorem save_load_roundtrip {V : Type} (db : DataBase ℕ V)
    (hw : ∀ w ∈ db.matrix, w < 2 ^ 32)
    (hlen : db.matrix.length = db.data.length * db.embedding_dim) :
    openSnapshot db.embedding_dim (saveDB db)
      = .ok ⟨db.embedding_dim, "cosine",
          ⟨db.embedding_dim,
           db.data.map (fun r => ⟨r.id, [], r.fields⟩),
           db.matrix,
           db.additional_data⟩⟩ := by
  have hparse : parseSnapshot (saveDB db)
      = some ⟨db.embedding_dim,
              db.data.map (fun r => ⟨r.id, [], r.fields⟩),
              db.matrix, db.additional_data⟩ := by
    unfold parseSnapshot saveDB
    rw [b64_roundtrip ((db.matrix.map leBytes32).flatten) (leBytes_flatten_lt db.matrix)]
    dsimp only
    rw [words_roundtrip db.matrix hw]
    simp [List.map_map, Function.comp]
  rw [openSnapshot_eq _ _ _ hparse]
  rw [if_neg (by simp [hlen])]

/-- Witness for C4 on the concrete store `dbW4`. -/
theorem save_load_roundtrip_witness :
    (∀ w ∈ dbW4.matrix, w < 2 ^ 32)
    ∧ dbW4.matrix.length = dbW4.data.length * dbW4.embedding_dim
    ∧ openSnapshot dbW4.embedding_dim (saveDB dbW4)
        = .ok ⟨dbW4.embedding_dim, "cosine",
            ⟨dbW4.embedding_dim,
             dbW4.data.map (fun r => ⟨r.id, [], r.fields⟩),
             dbW4.matrix, dbW4.additional_data⟩⟩ :=
  ⟨by decide, by decide, save_load_roundtrip dbW4 (by decide) (by decide)⟩

/-- Witness for C5 on the concrete mismatched snapshot `snapBad`
(1 record, dimension 1, empty decoded matrix). -/
theorem open_corrupt_iff_witness :
    parseSnapshot snapBad = some dbBad
    ∧ ((openSnapshot 1 snapBad
          = .error (.corrupt (dbBad.data.length * dbBad.embedding_dim)
              dbBad.matrix.length)
        ↔ dbBad.matrix.length ≠ dbBad.data.length * dbBad.embedding_dim)
       ∧ (∀ e a : ℕ, openSnapshot 1 snapBad = .error (.corrupt e a) →
            e = dbBad.data.length * dbBad.embedding_dim ∧ a = dbBad.matrix.length)
       ∧ (∀ eng : Engine ℕ Unit, openSnapshot 1 snapBad = .ok eng →
            dbBad.matrix.length = dbBad.data.length * dbBad.embedding_dim)) :=
  ⟨by decide, open_corrupt_iff 1 snapBad dbBad (by decide)⟩

/- ### C2: bounded top-k selection -/

theorem heapInv_nil (k : ℕ) : HeapInv k 0 [] := by
  exact ⟨List.sorted_nil, by simp, 0, by simp, by simp⟩

theorem heapInv_push (k : ℕ) (m : Multiset SI) (h : List SI) (x : SI)
    (hi : HeapInv k m h) : HeapInv k (m + {x}) (boundedPush k h x) := by
  obtain ⟨hs, hlen, dr, hm, hdr⟩ := hi
  have hs' : (List.orderedInsert sle x h).Sorted sle := hs.orderedInsert x h
  have hperm : List.Perm (List.orderedInsert sle x h) (x :: h) :=
    List.perm_orderedInsert sle x h
  have hlen' : (List.orderedInsert sle x h).length = h.length + 1 :=
    List.orderedInsert_length sle h x
  have hmul : (↑(List.orderedInsert sle x h) : Multiset SI) = ↑(x :: h) :=
    Multiset.coe_eq_coe.mpr hperm
  have hcardm : Multiset.card m = h.length + Multiset.card dr := by
    rw [hm]; simp
  unfold boundedPush
  dsimp only
  split_ifs with hk
  · -- the heap exceeded the bound: pop the lowest-scoring candidate
    have hmin : h.length ≤ k := by rw [hlen]; exact Nat.min_le_left _ _
    have hhk : h.length = k := by omega
    have hkcard : k ≤ Multiset.card m := by omega
    obtain ⟨a, t, hat⟩ : ∃ a t, List.orderedInsert sle x h = a :: t := by
      cases hcons : List.orderedInsert sle x h with
      | nil => rw [hcons] at hlen'; simp at hlen'
      | cons a t => exact ⟨a, t, rfl⟩
    rw [hat]
    rw [hat] at hs' hmul hlen'
    show HeapInv k (m + {x}) t
    have hts : t.Sorted sle := (List.sorted_cons.mp hs').2
    have hhead : ∀ y ∈ t, sle a y := (List.sorted_cons.mp hs').1
    have htlen : t.length = k := by
      simp only [List.length_cons] at hlen'
      omega
    have hxt : ({a} : Multiset SI) + ↑t = {x} + ↑h := by
      rw [← Multiset.cons_coe, ← Multiset.singleton_add] at hmul
      rw [← Multiset.cons_coe, ← Multiset.singleton_add] at hmul
      exact hmul
    refine ⟨hts, ?_, {a} + dr, ?_, ?_⟩
    · simp only [Multiset.card_add, Multiset.card_singleton]
      omega
    · rw [hm]
      calc (↑h : Multiset SI) + dr + {x} = ({x} + ↑h) + dr := by abel
        _ = ({a} + ↑t) + dr := by rw [hxt]
        _ = ↑t + ({a} + dr) := by abel
    · intro d hd r hr
      rcases Multiset.mem_add.mp hd with hda | hdd
      · have hda' : d = a := Multiset.mem_singleton.mp hda
        subst hda'
        exact hhead r hr
      · have hrxh : r = x ∨ r ∈ h := by
          have h1 : r ∈ ({a} : Multiset SI) + ↑t := by
            rw [Multiset.mem_add]
            exact Or.inr (Multiset.mem_coe.mpr hr)
          rw [hxt] at h1
          simpa using h1
        rcases hrxh with rfl | hrh
        · have haxh : a = r ∨ a ∈ h := by
            have h1 : a ∈ ({a} : Multiset SI) + ↑t := by simp
            rw [hxt] at h1
            simpa using h1
          rcases haxh with hax | hah
          · have hth : (↑t : Multiset SI) = ↑h := by
              rw [hax] at hxt
              exact add_left_cancel hxt
            have hxinh : r ∈ h := by
              have h2 := Multiset.mem_coe.mpr hr
              rw [hth] at h2
              exact Multiset.mem_coe.mp h2
            exact hdr d hdd r hxinh
          · have h1 : d.1 ≤ a.1 := hdr d hdd a hah
            have h2 : a.1 ≤ r.1 := by
              have hx' : r ∈ a :: t := by
                have h3 : r ∈ ({a} : Multiset SI) + ↑t := by
                  rw [hxt]; simp
                rcases Multiset.mem_add.mp h3 with h4 | h4
                · exact List.mem_cons.mpr (Or.inl (Multiset.mem_singleton.mp h4))
                · exact List.mem_cons.mpr (Or.inr (Multiset.mem_coe.mp h4))
              rcases List.mem_cons.mp hx' with h3 | h3
              · rw [h3]
              · exact hhead r h3
            exact le_trans h1 h2
        · exact hdr d hdd r hrh
  · -- the heap stayed within the bound: nothing is dropped
    push_neg at hk
    have hhk : h.length + 1 ≤ k := by omega
    have hcard : Multiset.card m = h.length := by omega
    have hdr0 : dr = 0 := by
      have : Multiset.card dr = 0 := by omega
      exact Multiset.card_eq_zero.mp this
    refine ⟨hs', ?_, 0, ?_, by simp⟩
    · rw [hlen']
      simp only [Multiset.card_add, Multiset.card_singleton]
      omega
    · rw [hm, hdr0, hmul]
      rw [← Multiset.cons_coe, ← Multiset.singleton_add]
      abel

theorem heapInv_foldl (k : ℕ) (m : Multiset SI) (h : List SI)
    (hi : HeapInv k m h) :
    ∀ l : List SI, HeapInv k (m + ↑l) (l.foldl (boundedPush k) h) := by
  intro l
  induction l generalizing m h with
  | nil => simpa using hi
  | cons y ys ih =>
      have h2 := ih (m + {y}) (boundedPush k h y) (heapInv_push k m h y hi)
      rw [List.foldl_cons]
      have hms : m + ↑(y :: ys) = m + {y} + ↑ys := by
        rw [← Multiset.cons_coe, ← Multiset.singleton_add]
        abel
      rw [hms]
      exact h2

theorem heapInv_foldHeap (k : ℕ) (l : List SI) :
    HeapInv k (↑l : Multiset SI) (foldHeap k l) := by
  have := heapInv_foldl k 0 [] (heapInv_nil k) l
  simpa [foldHeap] using this

theorem heapInv_absorb (k : ℕ) (m1 m2 : Multiset SI) (h2 H : List SI)
    (hH : HeapInv k (m1 + ↑h2) H) (h2i : HeapInv k m2 h2) :
    HeapInv k (m1 + m2) H := by
  obtain ⟨hs2, hlen2, dr2, hm2, hdr2⟩ := h2i
  by_cases hdr0 : dr2 = 0
  · rw [hm2, hdr0, add_zero]
    exact hH
  · have hcard2 : Multiset.card m2 = h2.length + Multiset.card dr2 := by
      rw [hm2]; simp
    have hdrpos : 0 < Multiset.card dr2 := Multiset.card_pos.mpr hdr0
    have hl2k : h2.length = k := by omega
    obtain ⟨hsH, hlenH, dr', hm', hdr'⟩ := hH
    have hcardH : Multiset.card (m1 + (↑h2 : Multiset SI))
        = Multiset.card m1 + h2.length := by simp
    have hlenHk : H.length = k := by omega
    refine ⟨hsH, ?_, dr' + dr2, ?_, ?_⟩
    · have : Multiset.card (m1 + m2) = Multiset.card m1 + Multiset.card m2 := by
        simp
      omega
    · rw [hm2]
      calc m1 + ((↑h2 : Multiset SI) + dr2) = (m1 + ↑h2) + dr2 := by abel
        _ = (↑H + dr') + dr2 := by rw [hm']
        _ = ↑H + (dr' + dr2) := by abel
    · intro d hd r hr
      rcases Multiset.mem_add.mp hd with hd' | hd2
      · exact hdr' d hd' r hr
      · by_contra hlt
        push_neg at hlt
        have habove : ∀ z ∈ h2, r.1 < z.1 := fun z hz =>
          lt_of_lt_of_le hlt (hdr2 d hd2 z hz)
        have hnot : ∀ z ∈ h2, z ∉ dr' := by
          intro z hz hzdr
          exact absurd (hdr' z hzdr r hr) (not_le.mpr (habove z hz))
        have hle : (↑h2 : Multiset SI) ≤ ↑H := by
          rw [Multiset.le_iff_count]
          intro z
          by_cases hz2 : z ∈ h2
          · have hc0 : Multiset.count z dr' = 0 :=
              Multiset.count_eq_zero.mpr (hnot z hz2)
            have hlc : Multiset.count z (↑h2 : Multiset SI)
                ≤ Multiset.count z (m1 + ↑h2) :=
              Multiset.count_le_of_le z (Multiset.le_add_left _ _)
            rw [hm'] at hlc
            simpa [Multiset.count_add, hc0] using hlc
          · have : Multiset.count z (↑h2 : Multiset SI) = 0 :=
              Multiset.count_eq_zero.mpr (fun hz => hz2 (Multiset.mem_coe.mp hz))
            simp [this]
        have hcards : Multiset.card (↑H : Multiset SI)
            ≤ Multiset.card (↑h2 : Multiset SI) := by
          simp [hlenHk, hl2k]
        have heq : (↑h2 : Multiset SI) = ↑H :=
          Multiset.eq_of_le_of_card_le hle hcards
        have hrh2 : r ∈ h2 := by
          have h3 : r ∈ (↑H : Multiset SI) := Multiset.mem_coe.mpr hr
          rw [← heq] at h3
          exact Multiset.mem_coe.mp h3
        exact absurd (hdr2 d hd2 r hrh2) (not_le.mpr hlt)

theorem heapInv_merge (k : ℕ) (m1 m2 : Multiset SI) (h1 h2 : List SI)
    (hi1 : HeapInv k m1 h1) (hi2 : HeapInv k m2 h2) :
    HeapInv k (m1 + m2) (mergeHeaps k h1 h2) :=
  heapInv_absorb k m1 m2 h2 _ (heapInv_foldl k m1 h1 hi1 h2) hi2

theorem heapInv_eval (k : ℕ) : ∀ t : PTree, HeapInv k (↑t.flat : Multiset SI) (t.eval k)
  | .leaf l => heapInv_foldHeap k l
  | .node t1 t2 => by
      have h12 := heapInv_merge k (↑t1.flat) (↑t2.flat) _ _
        (heapInv_eval k t1) (heapInv_eval k t2)
      have hadd : (↑(PTree.flat (.node t1 t2)) : Multiset SI)
          = (↑t1.flat : Multiset SI) + ↑t2.flat := by
        simp [PTree.flat]
      rw [hadd]
      exact h12

theorem heapInv_scores (k : ℕ) (m : Multiset SI) (h : List SI)
    (hi : HeapInv k m h) :
    h.map Prod.fst
      = (Multiset.sort (fun a b : ℚ => a ≤ b) (m.map Prod.fst)).drop
          (Multiset.card m - h.length) := by
  obtain ⟨hs, hlen, dr, hm, hdr⟩ := hi
  have hsortL : (Multiset.sort (fun a b : ℚ => a ≤ b) (m.map Prod.fst)).Sorted
      (fun a b : ℚ => a ≤ b) := Multiset.sort_sorted _ _
  have hsortD : (Multiset.sort (fun a b : ℚ => a ≤ b) (dr.map Prod.fst)).Sorted
      (fun a b : ℚ => a ≤ b) := Multiset.sort_sorted _ _
  have hsh : (h.map Prod.fst).Sorted (fun a b : ℚ => a ≤ b) :=
    List.Pairwise.map Prod.fst (fun _ _ hab => hab) hs
  have key : Multiset.sort (fun a b : ℚ => a ≤ b) (m.map Prod.fst)
      = Multiset.sort (fun a b : ℚ => a ≤ b) (dr.map Prod.fst) ++ h.map Prod.fst := by
    apply List.eq_of_perm_of_sorted ?_ hsortL ?_
    · rw [← Multiset.coe_eq_coe, Multiset.sort_eq, ← Multiset.coe_add,
          Multiset.sort_eq, ← Multiset.map_coe, hm, Multiset.map_add]
      exact add_comm _ _
    · apply List.pairwise_append.mpr
      refine ⟨hsortD, hsh, ?_⟩
      intro a ha b hb
      have ha' : a ∈ Multiset.map Prod.fst dr := (Multiset.mem_sort _).mp ha
      obtain ⟨d, hd, rfl⟩ := Multiset.mem_map.mp ha'
      obtain ⟨r, hrmem, rfl⟩ := List.mem_map.mp hb
      exact hdr d hd r hrmem
  have hlD : (Multiset.sort (fun a b : ℚ => a ≤ b) (dr.map Prod.fst)).length
      = Multiset.card m - h.length := by
    rw [Multiset.length_sort, Multiset.card_map]
    have hcm : Multiset.card m = h.length + Multiset.card dr := by
      rw [hm]; simp
    omega
  rw [key, ← hlD, List.drop_left]

theorem reverse_drop_eq (l : List ℚ) (n : ℕ) :
    (l.drop n).reverse = l.reverse.take (l.length - n) := by
  rcases le_or_lt n l.length with hn | hn
  · have hsplit : l.reverse = (l.drop n).reverse ++ (l.take n).reverse := by
      rw [← List.reverse_append, List.take_append_drop]
    have hlen : (l.drop n).reverse.length = l.length - n := by simp
    rw [hsplit, ← hlen, List.take_left]
  · rw [List.drop_eq_nil_of_le (le_of_lt hn)]
    have : l.length - n = 0 := by omega
    simp [this]

theorem take_min_length (l : List ℚ) (k : ℕ) : l.take (min k l.length) = l.take k := by
  rcases le_or_lt k l.length with hk | hk
  · rw [Nat.min_eq_left hk]
  · rw [Nat.min_eq_right (le_of_lt hk), List.take_length,
        List.take_of_length_le (le_of_lt hk)]

/-- C2: the specification `QuerySpec` holds for every store, probe,
`top_k`, threshold and filter (on the domain where the code runs
without panicking: positive dimension, the store invariant, and a
normalizable probe): `query` returns exactly the `top_k` highest-scoring
surviving candidates — all of them when fewer survive — sorted by
non-increasing score, each rendered from an actual record that passed
the filter and met the threshold, and the resulting score list is the
same for every rayon partition/merge tree over the same candidates. -/
theorem query_topk_spec {V : Type} (dim : ℕ) (isq : ℚ → ℚ) (db : DataBase ℚ V)
    (qv : List ℚ) (k : ℕ) (bt : Option ℚ) (f? : Option (Rec ℚ V → Bool))
    (hdim : 0 < dim)
    (hinv : db.matrix.length = db.data.length * dim)
    (hq : EPS < sumsq qv) :
    QuerySpec dim isq db qv k bt f? := by
  unfold QuerySpec
  obtain ⟨hs, hlen, dr, hm, hdr⟩ := heapInv_foldHeap k (candStream dim isq db qv bt f?)
  have hscores := heapInv_scores k _ _ (heapInv_foldHeap k (candStream dim isq db qv bt f?))
  have hcard : Multiset.card (↑(candStream dim isq db qv bt f?) : Multiset SI)
      = (candStream dim isq db qv bt f?).length := by simp
  have hmapscore : (queryModel dim isq db qv k bt f?).map QueryHit.score
      = ((foldHeap k (candStream dim isq db qv bt f?)).map Prod.fst).reverse := by
    unfold queryModel
    rw [List.map_map, ← List.map_reverse]
    rfl
  have hsorted : ((foldHeap k (candStream dim isq db qv bt f?)).map Prod.fst).Sorted
      (fun a b : ℚ => a ≤ b) := List.Pairwise.map Prod.fst (fun _ _ hab => hab) hs
  refine ⟨?_, ?_, ?_, ?_, ?_⟩
  · unfold queryModel
    rw [List.length_map, List.length_reverse]
    rw [hlen, hcard]
  · rw [hmapscore]
    exact List.pairwise_reverse.mpr hsorted
  · rw [hmapscore, hscores, Multiset.map_coe, reverse_drop_eq]
    have hLlen : (Multiset.sort (fun a b : ℚ => a ≤ b)
        (↑((candStream dim isq db qv bt f?).map Prod.fst) : Multiset ℚ)).length
        = (candStream dim isq db qv bt f?).length := by
      rw [Multiset.length_sort]
      simp
    rw [hLlen, hlen, hcard]
    have harith : (candStream dim isq db qv bt f?).length
        - ((candStream dim isq db qv bt f?).length
            - min k (candStream dim isq db qv bt f?).length)
        = min k (candStream dim isq db qv bt f?).length := by omega
    rw [harith]
    have hrev : ((Multiset.sort (fun a b : ℚ => a ≤ b)
        (↑((candStream dim isq db qv bt f?).map Prod.fst) : Multiset ℚ)).reverse).length
        = (candStream dim isq db qv bt f?).length := by
      rw [List.length_reverse, hLlen]
    rw [← hrev]
    exact take_min_length _ k
  · intro e he
    unfold queryModel at he
    obtain ⟨si, hsi, rfl⟩ := List.mem_map.mp he
    refine ⟨si, ?_, rfl⟩
    have hsi' : si ∈ foldHeap k (candStream dim isq db qv bt f?) :=
      List.mem_reverse.mp hsi
    have : si ∈ (↑(candStream dim isq db qv bt f?) : Multiset SI) := by
      rw [hm, Multiset.mem_add]
      exact Or.inl (Multiset.mem_coe.mpr hsi')
    exact Multiset.mem_coe.mp this
  · intro t ht
    have hIt := heapInv_eval k t
    rw [ht] at hIt
    have hlent := hIt.2.1
    have h1 := heapInv_scores k _ _ hIt
    have heqmap : (t.eval k).map Prod.fst
        = (foldHeap k (candStream dim isq db qv bt f?)).map Prod.fst := by
      rw [h1, hscores, hlent, hlen]
    rw [hmapscore, List.map_reverse, heqmap]

/-- Witness for C2 on the concrete two-record store `dbW2` with probe
`[3]` and `top_k = 1`. -/
theorem query_topk_spec_witness :
    0 < 1
    ∧ dbW2.matrix.length = dbW2.data.length * 1
    ∧ EPS < sumsq [(3 : ℚ)]
    ∧ QuerySpec 1 isq1 dbW2 [(3 : ℚ)] 1 none none :=
  ⟨by decide, by decide, by norm_num [sumsq, EPS],
   query_topk_spec 1 isq1 dbW2 [(3 : ℚ)] 1 none none (by decide) (by decide)
     (by norm_num [sumsq, EPS])⟩

end NV
